import Mathlib

/-!
Shallow embedding of `stan_workup.py`: the posterior summarizer `summarize`
(lines 25-68) and the credible-region plotter `predictive_regression`
(lines 71-164).

Numeric values (numpy float64) are modelled as exact rationals; every value
appearing in the claims is a small decimal on which float and rational
arithmetic agree.  Chart construction is modelled as the list of draw events
issued against the bokeh figure; the display side effects themselves carry no
data and are dropped.
-/

namespace StanWorkup

/-- Rounding to an integer in the mode of `np.round`: round to nearest,
ties to even. -/
def roundHalfEven (x : ℚ) : ℤ :=
  if Int.fract x = 1/2 then (if Even ⌊x⌋ then ⌊x⌋ else ⌊x⌋ + 1) else round x

/-- Model of `np.round(x, 3)`: round to 3 decimal digits, ties to even. -/
def round3 (x : ℚ) : ℚ := (roundHalfEven (x * 1000) : ℚ) / 1000

/-- Tests whether `p` is an initial run of `s`; the primitive of the Python
substring operations used on column names. -/
def leadsWith : List Char → List Char → Bool
  | [], _ => true
  | _ :: _, [] => false
  | a :: as, b :: bs => a == b && leadsWith as bs

/-- Model of Python `s.replace(p, '')`: scan `s` left to right removing
non-overlapping occurrences of `p`; the counter argument holds the number of
characters of a matched occurrence still to be discarded. -/
def pyRemoveGo (p : List Char) : List Char → ℕ → List Char
  | [], _ => []
  | _ :: rest, skip + 1 => pyRemoveGo p rest skip
  | c :: rest, 0 =>
    if leadsWith p (c :: rest) && !p.isEmpty then pyRemoveGo p rest (p.length - 1)
    else c :: pyRemoveGo p rest 0

/-- Python `s.replace(p, '')` (the only replacement the source performs). -/
def pyRemove (p s : List Char) : List Char := pyRemoveGo p s 0

/-- Python substring containment `p in s`. -/
def containsSub (p s : List Char) : Bool :=
  (List.range (s.length + 1)).any (fun i => leadsWith p (s.drop i))

/-- Substring containment on `String`, as used to select ppc columns
(line 119). -/
def strContains (p s : String) : Bool := containsSub p.toList s.toList

/-- Decimal value of a digit string. -/
def digitsToNat (s : List Char) : ℕ :=
  s.foldl (fun acc c => 10 * acc + (c.toNat - 48)) 0

/-- Unsigned part of Python `int(str)`. -/
def pyIntNat (s : List Char) : Option ℕ :=
  if !s.isEmpty && s.all Char.isDigit then some (digitsToNat s) else none

/-- Model of Python `int(str)` on the decimal forms that occur here
(an optionally `-`-signed digit string); any other input raises, i.e. `none`. -/
def pyInt (s : List Char) : Option ℤ :=
  match s with
  | [] => none
  | c :: rest =>
    if c = '-' then (pyIntNat rest).map (fun n => -(n : ℤ))
    else (pyIntNat (c :: rest)).map (fun n => (n : ℤ))

/-- Line 123: `int(x.replace(ppc_string, '').replace(']', '')) - 1`,
recovering the x-axis condition value from a column name. -/
def xValueL (pat col : List Char) : Option ℤ :=
  (pyInt (pyRemove [']'] (pyRemove pat col))).map (fun m => m - 1)

/-- Line 123 on `String` column names. -/
def xValue (pat col : String) : Option ℤ := xValueL pat.toList col.toList

/-- Linear interpolation at virtual index `h` into the sorted sample list
`s`, following numpy's default `linear` quantile method: with `lo = ⌊h⌋`
and `hi = min (lo + 1) (n - 1)`, the value is
`s[lo] + (h - ⌊h⌋) * (s[hi] - s[lo])`. -/
def interpAt (s : List ℚ) (h : ℚ) : ℚ :=
  let lo := (⌊h⌋).toNat
  let hi := min (lo + 1) (s.length - 1)
  s.getD lo 0 + Int.fract h * (s.getD hi 0 - s.getD lo 0)

/-- Model of `np.quantile(data, q)` (default linear interpolation): sort the
data and interpolate at virtual index `q * (n - 1)`. -/
def npQuantile (data : List ℚ) (q : ℚ) : ℚ :=
  let s := data.insertionSort (· ≤ ·)
  interpAt s (q * ((s.length : ℚ) - 1))

/-- Line 51: `np.round(np.quantile(data, [0.5, 0.025, 0.975]), 3)` as the
triple (median, lower, upper). -/
def summaryVals (data : List ℚ) : ℚ × ℚ × ℚ :=
  (round3 (npQuantile data (1/2)), round3 (npQuantile data (1/40)),
    round3 (npQuantile data (39/40)))

/-- Decimal digits of `m` left-padded with zeros to width 3. -/
def natPad3 (m : ℕ) : List Char :=
  let ds := (Nat.repr m).toList
  List.replicate (3 - ds.length) '0' ++ ds

/-- Fractional-part digits of a thousandths count, trailing zeros removed,
at least one digit (Python float repr style). -/
def fracStr (m : ℕ) : String :=
  let t := ((natPad3 m).reverse.dropWhile (fun c => c == '0')).reverse
  if t.isEmpty then "0" else String.mk t

/-- Python `str`-formatting of a float that is an exact multiple of 1/1000,
the only floats the source formats (they come out of `np.round(_, 3)`). -/
def floatStr (x : ℚ) : String :=
  let n : ℤ := ⌊x * 1000⌋
  let a := n.natAbs
  (if n < 0 then "-" else "") ++ Nat.repr (a / 1000) ++ "." ++ fracStr (a % 1000)

/-- Inputs accepted by `summarize`: a pandas Series (which carries a `.name`
and has a `.values` attribute) or a bare numpy array (which has no
`.values`). -/
inductive PyData where
  | series (name : Option String) (vals : List ℚ)
  | ndarray (vals : List ℚ)
deriving DecidableEq

/-- Underlying draws of either input kind. -/
def dataVals : PyData → List ℚ
  | PyData.series _ vs => vs
  | PyData.ndarray vs => vs

/-- Attribute lookup `data.values` (line 61): present on a Series, absent on
a numpy array, where it raises AttributeError. -/
def valuesAttr : PyData → Option (List ℚ)
  | PyData.series _ vs => some vs
  | PyData.ndarray _ => none

/-- The single-row summary record built on lines 53-58. -/
structure Summary where
  value : Option String
  median : ℚ
  cr : String
deriving DecidableEq

/-- Python string interpolation of a possibly-`None` name. -/
def pyOptStr : Option String → String
  | some s => s
  | none => "None"

/-- Lines 25-68, `summarize(data, name, units, plot)`: resolve the name,
compute the rounded quantile triple, build the record, and, when `plot` is
true, access `data.values` to build the ECDF figure (a display side effect)
before returning.  A failed attribute access is an `Except.error`. -/
def summarize (data : PyData) (name : Option String) (units : Option String)
    (plot : Bool) : Except String Summary :=
  let name1 : Option String :=
    match data, name with
    | PyData.series n _, none => n
    | _, _ => name
  let name2 : Option String :=
    match units with
    | some u => some (pyOptStr name1 ++ " (" ++ u ++ ")")
    | none => name1
  let vals := summaryVals (dataVals data)
  let df : Summary :=
    { value := name2, median := vals.1,
      cr := "[" ++ floatStr vals.2.1 ++ ", " ++ floatStr vals.2.2 ++ "]" }
  if plot then
    match valuesAttr data with
    | none => Except.error "AttributeError"
    | some _ => Except.ok df
  else Except.ok df

/-- Line 111: `[pt for pt in percentiles if pt > 0]`.  The source binds this
to `ptiles` and then immediately shadows it on line 112, so the filtered
list is dead. -/
def positiveWidths (ps : List ℚ) : List ℚ := ps.filter (fun pt => decide (0 < pt))

/-- Lines 112-114: the quantile levels
`([50 - pt/2 for pt in percentiles] + [50] + [50 + pt/2 for pt in
percentiles[::-1]])`, divided by 100.  Note it reads `percentiles`, not the
filtered list of line 111. -/
def buildPtiles (percentiles : List ℚ) : List ℚ :=
  ((percentiles.map (fun pt => 50 - pt / 2)) ++ [50]
    ++ (percentiles.reverse.map (fun pt => 50 + pt / 2))).map (fun pt => pt / 100)

/-- A draw event against the bokeh figure: a filled band (`p.varea`)
identified by the two quantile levels it looks up and its color, or a line
(`p.line`) at one level. -/
inductive DrawCall where
  | varea (y1 y2 : ℚ) (color : String)
  | line (y : ℚ) (color : String)
deriving DecidableEq

/-- Lines 133-140: the default 6-green palette. -/
def defaultColors : List String :=
  ["#bfd3bf", "#99b899", "#739d73", "#4d824d", "#266826", "#004D00"]

/-- Line 132: `if not colors: colors = [...]`. -/
def effColors (colors : List String) : List String :=
  if colors.isEmpty then defaultColors else colors

/-- Lines 148-154, the band loop: `k` iterations of
`p.varea(y1=df_ppc.loc[ptiles[i]], y2=df_ppc.loc[ptiles[-i-1]],
color=colors[i])`.  A failing list index (Python IndexError) is `none`. -/
def bandCalls (ptiles : List ℚ) (cs : List String) : ℕ → Option (List DrawCall)
  | 0 => some []
  | k + 1 =>
    (bandCalls ptiles cs k).bind (fun rest =>
      (cs.get? k).map (fun c =>
        rest ++ [DrawCall.varea (ptiles.getD k 0)
          (ptiles.getD (ptiles.length - 1 - k) 0) c]))

/-- Lines 132-162: the draw events of `predictive_regression` - the band
loop over the first `len(ptiles) // 2` levels, then the median line at
level 0.5 with color `colors[-1]`. -/
def predictive_draw (percentiles : List ℚ) (colors : List String) :
    Option (List DrawCall) :=
  let cs := effColors colors
  let ptiles := buildPtiles percentiles
  (bandCalls ptiles cs (ptiles.length / 2)).bind (fun bands =>
    cs.getLast?.map (fun c => bands ++ [DrawCall.line (1/2) c]))

/-- A pandas DataFrame: named columns of draws. -/
structure DataFrame where
  cols : List (String × List ℚ)
deriving DecidableEq

/-- Column names, `df.columns`. -/
def DataFrame.columns (df : DataFrame) : List String := df.cols.map Prod.fst

/-- Pandas `df[columns]`: a fresh frame holding the named columns. -/
def dfSelect (df : DataFrame) (names : List String) : DataFrame :=
  ⟨df.cols.filter (fun p => names.contains p.1)⟩

/-- Line 120: `df[columns].quantile(ptiles).reset_index().melt(...)` - one
long row `(quantile level, column name, value)` per level/column pair
(pandas quantile uses the same linear interpolation as numpy). -/
def meltQuantiles (df : DataFrame) (qs : List ℚ) : List (ℚ × String × ℚ) :=
  (qs.map (fun q => df.cols.map (fun p => (q, p.1, npQuantile p.2 q)))).flatten

/-- Everything `predictive_regression` leaves behind: the caller's frame
after the call, the derived long frame `df_ppc` (with the recovered x value
of line 123 attached), the figure configuration, and the draw events. -/
structure PRResult where
  dfAfter : DataFrame
  longRows : List (ℚ × String × ℚ × Option ℤ)
  xLabel : String
  yLabel : String
  plotWidth : ℕ
  plotHeight : ℕ
  draws : Option (List DrawCall)

/-- Lines 71-164, `predictive_regression`: every pandas step reads `df` and
builds fresh frames; the one `inplace=True` call (line 126, `set_index`)
mutates only the derived local `df_ppc`, which the state-passing embedding
shows by rebinding the local.  The caller's frame is returned as
`dfAfter`. -/
def predictive_regression (df : DataFrame) (ppc_name : String)
    (percentiles : List ℚ) (x_label y_label : String)
    (width height : ℕ) (colors : List String) : PRResult :=
  let _filtered := positiveWidths percentiles
  let pat := ppc_name ++ "["
  let columns := df.columns.filter (fun c => strContains pat c)
  let df_ppc0 := meltQuantiles (dfSelect df columns) (buildPtiles percentiles)
  let df_ppc := df_ppc0.map (fun r => (r.1, r.2.1, r.2.2, xValue pat r.2.1))
  { dfAfter := df, longRows := df_ppc, xLabel := x_label, yLabel := y_label,
    plotWidth := width, plotHeight := height,
    draws := predictive_draw percentiles colors }

/-! Rounding lemmas. -/

lemma floor_le_roundHalfEven (x : ℚ) : ⌊x⌋ ≤ roundHalfEven x := by
  unfold roundHalfEven
  split
  · split
    · exact le_refl _
    · omega
  · rw [round_eq]
    exact Int.floor_mono (by linarith)

lemma roundHalfEven_le_floor_add_one (x : ℚ) : roundHalfEven x ≤ ⌊x⌋ + 1 := by
  unfold roundHalfEven
  split
  · split
    · omega
    · omega
  · rw [round_eq]
    have h : ⌊x + 1/2⌋ ≤ ⌊x + 1⌋ := Int.floor_mono (by linarith)
    rwa [Int.floor_add_one] at h

lemma roundHalfEven_mono {x y : ℚ} (hxy : x ≤ y) :
    roundHalfEven x ≤ roundHalfEven y := by
  rcases lt_or_le ⌊x⌋ ⌊y⌋ with hf | hf
  · exact le_trans (roundHalfEven_le_floor_add_one x)
      (le_trans hf (floor_le_roundHalfEven y))
  · have hfe : ⌊x⌋ = ⌊y⌋ := le_antisymm (Int.floor_mono hxy) hf
    have hfx : Int.fract x = x - ⌊x⌋ := (Int.self_sub_floor x).symm
    have hfy : Int.fract y = y - ⌊y⌋ := (Int.self_sub_floor y).symm
    have hfc : ((⌊x⌋ : ℚ)) = ((⌊y⌋ : ℚ)) := by rw [hfe]
    have hfr : Int.fract x ≤ Int.fract y := by
      rw [hfx, hfy]
      linarith
    unfold roundHalfEven
    by_cases h1 : Int.fract x = 1/2 <;> by_cases h2 : Int.fract y = 1/2
    · rw [if_pos h1, if_pos h2, hfe]
    · rw [if_pos h1, if_neg h2, round_eq]
      have hgt : (1:ℚ)/2 < Int.fract y := by
        rcases lt_or_eq_of_le (le_trans (le_of_eq h1.symm) hfr) with h | h
        · exact h
        · exact absurd h.symm h2
      have hle : ⌊y⌋ + 1 ≤ ⌊y + 1/2⌋ := by
        apply Int.le_floor.mpr
        rw [hfy] at hgt
        push_cast
        linarith
      split
      · omega
      · omega
    · rw [if_neg h1, if_pos h2, round_eq]
      have hlt : Int.fract x < 1/2 := by
        rcases lt_or_eq_of_le (le_trans hfr (le_of_eq h2)) with h | h
        · exact h
        · exact absurd h h1
      have hle : ⌊x + 1/2⌋ < ⌊y⌋ + 1 := by
        apply Int.floor_lt.mpr
        rw [hfx] at hlt
        rw [← hfe]
        push_cast
        linarith
      split
      · omega
      · omega
    · rw [if_neg h1, if_neg h2, round_eq, round_eq]
      exact Int.floor_mono (by linarith)

lemma round3_mono {x y : ℚ} (h : x ≤ y) : round3 x ≤ round3 y := by
  unfold round3
  have hm := roundHalfEven_mono (show x * 1000 ≤ y * 1000 by linarith)
  have hc : ((roundHalfEven (x * 1000) : ℚ)) ≤ ((roundHalfEven (y * 1000) : ℚ)) := by
    exact_mod_cast hm
  linarith

/-! Monotonicity of the quantile interpolation. -/

lemma sorted_getD_le {s : List ℚ} (hs : List.Sorted (· ≤ ·) s) {i j : ℕ}
    (hij : i ≤ j) (hj : j < s.length) : s.getD i 0 ≤ s.getD j 0 := by
  have hi : i < s.length := lt_of_le_of_lt hij hj
  rw [List.getD_eq_getElem _ _ hi, List.getD_eq_getElem _ _ hj]
  exact hs.rel_get_of_le (a := ⟨i, hi⟩) (b := ⟨j, hj⟩) (Fin.mk_le_mk.mpr hij)

lemma interpAt_mono {s : List ℚ} (hs : List.Sorted (· ≤ ·) s) (hne : s ≠ [])
    {h1 h2 : ℚ} (h0 : 0 ≤ h1) (h12 : h1 ≤ h2) (hub : h2 ≤ (s.length : ℚ) - 1) :
    interpAt s h1 ≤ interpAt s h2 := by
  have hlen : 1 ≤ s.length := List.length_pos.mpr hne
  have hf1nn : (0:ℤ) ≤ ⌊h1⌋ := Int.floor_nonneg.mpr h0
  have hf2nn : (0:ℤ) ≤ ⌊h2⌋ := Int.floor_nonneg.mpr (le_trans h0 h12)
  have hub2 : ⌊h2⌋ ≤ (s.length : ℤ) - 1 := by
    have hstep : ⌊h2⌋ ≤ ⌊(s.length : ℚ) - 1⌋ := Int.floor_mono hub
    rwa [show ((s.length : ℚ) - 1) = (((s.length : ℤ) - 1 : ℤ) : ℚ) by push_cast; ring,
      Int.floor_intCast] at hstep
  have hf12 : ⌊h1⌋ ≤ ⌊h2⌋ := Int.floor_mono h12
  simp only [interpAt]
  set lo1 := (⌊h1⌋).toNat with hlo1
  set lo2 := (⌊h2⌋).toNat with hlo2
  have hlo1z : (lo1 : ℤ) = ⌊h1⌋ := Int.toNat_of_nonneg hf1nn
  have hlo2z : (lo2 : ℤ) = ⌊h2⌋ := Int.toNat_of_nonneg hf2nn
  have hlo12 : lo1 ≤ lo2 := by omega
  have hlo2n : lo2 ≤ s.length - 1 := by omega
  have hlo1n : lo1 ≤ s.length - 1 := le_trans hlo12 hlo2n
  have hhi1 : min (lo1 + 1) (s.length - 1) < s.length := by omega
  have hhi2 : min (lo2 + 1) (s.length - 1) < s.length := by omega
  have hlo2lt : lo2 < s.length := by omega
  have hab1 : s.getD lo1 0 ≤ s.getD (min (lo1 + 1) (s.length - 1)) 0 :=
    sorted_getD_le hs (le_min (Nat.le_succ _) hlo1n) hhi1
  have hab2 : s.getD lo2 0 ≤ s.getD (min (lo2 + 1) (s.length - 1)) 0 :=
    sorted_getD_le hs (le_min (Nat.le_succ _) hlo2n) hhi2
  have hfr1a : 0 ≤ Int.fract h1 := Int.fract_nonneg h1
  have hfr1b : Int.fract h1 ≤ 1 := le_of_lt (Int.fract_lt_one h1)
  have hfr2a : 0 ≤ Int.fract h2 := Int.fract_nonneg h2
  rcases Nat.lt_or_ge lo1 lo2 with hcase | hcase
  · have hx1 : s.getD lo1 0 + Int.fract h1 * (s.getD (min (lo1 + 1) (s.length - 1)) 0
        - s.getD lo1 0) ≤ s.getD (min (lo1 + 1) (s.length - 1)) 0 := by
      nlinarith [hab1, hfr1a, hfr1b]
    have hmid : s.getD (min (lo1 + 1) (s.length - 1)) 0 ≤ s.getD lo2 0 :=
      sorted_getD_le hs (le_trans (min_le_left _ _) hcase) hlo2lt
    have hx2 : s.getD lo2 0 ≤ s.getD lo2 0 + Int.fract h2 *
        (s.getD (min (lo2 + 1) (s.length - 1)) 0 - s.getD lo2 0) := by
      nlinarith [hab2, hfr2a]
    linarith
  · have heq : lo1 = lo2 := le_antisymm hlo12 hcase
    have hfeq : ⌊h1⌋ = ⌊h2⌋ := by omega
    have hfr12 : Int.fract h1 ≤ Int.fract h2 := by
      have e1 : Int.fract h1 = h1 - ⌊h1⌋ := (Int.self_sub_floor h1).symm
      have e2 : Int.fract h2 = h2 - ⌊h2⌋ := (Int.self_sub_floor h2).symm
      have hc : ((⌊h1⌋ : ℚ)) = ((⌊h2⌋ : ℚ)) := by rw [hfeq]
      rw [e1, e2]
      linarith
    rw [heq]
    have hmul := mul_nonneg (sub_nonneg.mpr hfr12) (sub_nonneg.mpr hab2)
    nlinarith [hmul]

theorem npQuantile_mono (data : List ℚ) (hne : data ≠ []) {q1 q2 : ℚ}
    (hq0 : 0 ≤ q1) (hq12 : q1 ≤ q2) (hq1 : q2 ≤ 1) :
    npQuantile data q1 ≤ npQuantile data q2 := by
  simp only [npQuantile]
  have hs : List.Sorted (· ≤ ·) (data.insertionSort (· ≤ ·)) :=
    List.sorted_insertionSort _ _
  have hlen : (data.insertionSort (· ≤ ·)).length = data.length :=
    List.length_insertionSort _ _
  have hne' : data.insertionSort (· ≤ ·) ≠ [] := by
    intro h
    apply hne
    rw [h] at hlen
    exact List.length_eq_zero.mp hlen.symm
  have hNnn : (0:ℚ) ≤ ((data.insertionSort (· ≤ ·)).length : ℚ) - 1 := by
    have h1 : 1 ≤ (data.insertionSort (· ≤ ·)).length := List.length_pos.mpr hne'
    have h2 : (1:ℚ) ≤ ((data.insertionSort (· ≤ ·)).length : ℚ) := by exact_mod_cast h1
    linarith
  apply interpAt_mono hs hne' (mul_nonneg hq0 hNnn)
    (mul_le_mul_of_nonneg_right hq12 hNnn)
  calc q2 * (((data.insertionSort (· ≤ ·)).length : ℚ) - 1)
      ≤ 1 * (((data.insertionSort (· ≤ ·)).length : ℚ) - 1) :=
        mul_le_mul_of_nonneg_right hq1 hNnn
    _ = ((data.insertionSort (· ≤ ·)).length : ℚ) - 1 := one_mul _

/-- C1: for every non-empty numeric array, the summarizer's median is the
50th-percentile linearly interpolated quantile rounded to 3 decimals, the
lower and upper bounds are the 2.5th and 97.5th percentile quantiles rounded
to 3 decimals, and lower ≤ median ≤ upper. -/
theorem claim_C1 (data : List ℚ) (hne : data ≠ []) :
    (summaryVals data).1 = round3 (npQuantile data (50/100)) ∧
    (summaryVals data).2.1 = round3 (npQuantile data (25/1000)) ∧
    (summaryVals data).2.2 = round3 (npQuantile data (975/1000)) ∧
    (summaryVals data).2.1 ≤ (summaryVals data).1 ∧
    (summaryVals data).1 ≤ (summaryVals data).2.2 := by
  refine ⟨by norm_num [summaryVals], by norm_num [summaryVals],
    by norm_num [summaryVals], ?_, ?_⟩
  · exact round3_mono (npQuantile_mono data hne (by norm_num) (by norm_num) (by norm_num))
  · exact round3_mono (npQuantile_mono data hne (by norm_num) (by norm_num) (by norm_num))

/-- C1 witness: the inequalities at the concrete array [1, 2, 3, 4, 5]. -/
theorem claim_C1_witness :
    (([1, 2, 3, 4, 5] : List ℚ) ≠ []) ∧
    (summaryVals [1, 2, 3, 4, 5]).2.1 ≤ (summaryVals [1, 2, 3, 4, 5]).1 ∧
    (summaryVals [1, 2, 3, 4, 5]).1 ≤ (summaryVals [1, 2, 3, 4, 5]).2.2 :=
  ⟨by simp, (claim_C1 [1, 2, 3, 4, 5] (by simp)).2.2.2.1,
    (claim_C1 [1, 2, 3, 4, 5] (by simp)).2.2.2.2⟩

/-! Lemmas about the string replacement chain of line 123. -/

lemma leadsWith_append_self (p t : List Char) : leadsWith p (p ++ t) = true := by
  induction p with
  | nil => rfl
  | cons a as ih => simp [leadsWith, ih]

lemma mem_of_leadsWith : ∀ {p t : List Char}, leadsWith p t = true →
    ∀ {c : Char}, c ∈ p → c ∈ t := by
  intro p
  induction p with
  | nil =>
    intro t _ c hc
    simp at hc
  | cons a as ih =>
    intro t h c hc
    cases t with
    | nil => simp [leadsWith] at h
    | cons b bs =>
      simp only [leadsWith, Bool.and_eq_true, beq_iff_eq] at h
      rcases List.mem_cons.mp hc with h1 | h1
      · rw [h1, h.1]
        exact List.mem_cons_self _ _
      · exact List.mem_cons_of_mem _ (ih h.2 h1)

lemma pyRemoveGo_skip (p : List Char) :
    ∀ (u t : List Char), pyRemoveGo p (u ++ t) u.length = pyRemoveGo p t 0 := by
  intro u
  induction u with
  | nil => intro t; rfl
  | cons a u' ih =>
    intro t
    simp only [List.cons_append, List.length_cons]
    rw [pyRemoveGo]
    exact ih t

lemma pyRemoveGo_of_no_occur : ∀ (p s : List Char),
    (∀ i, leadsWith p (s.drop i) = false) → pyRemoveGo p s 0 = s := by
  intro p s
  induction s with
  | nil => intro _; rfl
  | cons c rest ih =>
    intro h
    have h0 : leadsWith p (c :: rest) = false := by
      have := h 0
      simpa using this
    rw [pyRemoveGo, h0]
    simp only [Bool.false_and, Bool.false_eq_true, if_false]
    congr 1
    apply ih
    intro i
    have := h (i + 1)
    simpa [List.drop_succ_cons] using this

lemma noOccur_of_not_mem {p s : List Char} {c : Char} (hc : c ∈ p) (hs : c ∉ s) :
    ∀ i, leadsWith p (s.drop i) = false := by
  intro i
  cases h : leadsWith p (s.drop i) with
  | false => rfl
  | true => exact absurd (List.mem_of_mem_drop (mem_of_leadsWith h hc)) hs

lemma pyRemove_append {p : List Char} (t : List Char) (hp : p ≠ []) :
    pyRemove p (p ++ t) = pyRemoveGo p t 0 := by
  unfold pyRemove
  cases p with
  | nil => exact absurd rfl hp
  | cons a p' =>
    have hl : leadsWith (a :: p') (a :: (p' ++ t)) = true := by
      rw [← List.cons_append]
      exact leadsWith_append_self _ _
    simp only [List.cons_append]
    rw [pyRemoveGo, hl]
    simp only [List.isEmpty_cons, Bool.not_false, Bool.and_true, if_true]
    have hlen : (a :: p').length - 1 = p'.length := by simp
    rw [hlen]
    exact pyRemoveGo_skip _ p' t

lemma pyRemove_single {c : Char} : ∀ (s : List Char), c ∉ s →
    pyRemove [c] (s ++ [c]) = s := by
  intro s
  induction s with
  | nil =>
    intro _
    unfold pyRemove
    simp only [List.nil_append]
    rw [pyRemoveGo]
    simp [leadsWith, pyRemoveGo]
  | cons d s' ih =>
    intro hc
    have hdc : (c == d) = false := by
      have hne : c ≠ d := fun h => hc (h ▸ List.mem_cons_self d s')
      simp [hne]
    have hlw : leadsWith [c] (d :: (s' ++ [c])) = false := by
      simp [leadsWith, hdc]
    unfold pyRemove
    simp only [List.cons_append]
    rw [pyRemoveGo, hlw]
    simp only [Bool.false_and, Bool.false_eq_true, if_false]
    congr 1
    exact ih (fun h => hc (List.mem_cons_of_mem _ h))

lemma xValueL_wellFormed (nm ds : List Char) (hne : ds ≠ [])
    (hdig : ds.all Char.isDigit = true) :
    xValueL (nm ++ ['[']) ((nm ++ ['[']) ++ ds ++ [']']) =
      some ((digitsToNat ds : ℤ) - 1) := by
  have hlb : '[' ∉ ds ++ [']'] := by
    intro hmem
    rcases List.mem_append.mp hmem with h | h
    · exact absurd (List.all_eq_true.mp hdig _ h) (by decide)
    · simp at h
  have hmem : '[' ∈ nm ++ ['['] := List.mem_append_right _ (by simp)
  have h1 : pyRemove (nm ++ ['[']) ((nm ++ ['[']) ++ (ds ++ [']'])) =
      pyRemoveGo (nm ++ ['[']) (ds ++ [']']) 0 :=
    pyRemove_append _ (by simp)
  have h2 : pyRemoveGo (nm ++ ['[']) (ds ++ [']']) 0 = ds ++ [']'] :=
    pyRemoveGo_of_no_occur _ _ (noOccur_of_not_mem hmem hlb)
  have hrb : ']' ∉ ds := by
    intro h
    exact absurd (List.all_eq_true.mp hdig _ h) (by decide)
  have h3 : pyRemove [']'] (ds ++ [']']) = ds := pyRemove_single ds hrb
  unfold xValueL
  rw [List.append_assoc (nm ++ ['[']), h1, h2, h3]
  cases ds with
  | nil => exact absurd rfl hne
  | cons d ds' =>
    have hd : d.isDigit = true := List.all_eq_true.mp hdig _ (List.mem_cons_self _ _)
    have hdm : d ≠ '-' := by
      intro h
      rw [h] at hd
      exact absurd hd (by decide)
    simp only [pyInt, if_neg hdm]
    unfold pyIntNat
    rw [if_pos (by simp [hdig])]
    rfl

/-- C4: the plotter selects exactly the columns containing the substring
`<base_name>[`, and for each well-formed column `<base_name>[<int>]`
recovers the x value by removing the `<base_name>[` pattern and the `]`,
parsing the remainder as an integer and subtracting 1; for columns
ppc[1], ppc[2], ppc[3] with base name ppc the x values are [0, 1, 2]. -/
theorem claim_C4 :
    (∀ (nm ds : List Char), ds ≠ [] → ds.all Char.isDigit = true →
      xValueL (nm ++ ['[']) ((nm ++ ['[']) ++ ds ++ [']']) =
        some ((digitsToNat ds : ℤ) - 1)) ∧
    (["ppc[1]", "ppc[2]", "ppc[3]"].filter (fun c => strContains "ppc[" c)).map
        (fun c => xValue "ppc[" c) = [some 0, some 1, some 2] :=
  ⟨xValueL_wellFormed, by decide⟩

/-- C4 witness: the general column-parsing statement applied to the
concrete column name ppc[7]. -/
theorem claim_C4_witness :
    ((['7'] : List Char) ≠ [] ∧ (['7'] : List Char).all Char.isDigit = true) ∧
    xValueL (['p', 'p', 'c'] ++ ['[']) ((['p', 'p', 'c'] ++ ['[']) ++ ['7'] ++ [']']) =
      some ((digitsToNat ['7'] : ℤ) - 1) :=
  ⟨⟨by decide, by decide⟩, claim_C4.1 ['p', 'p', 'c'] ['7'] (by decide) (by decide)⟩

/-! Lemmas about the band-drawing loop. -/

lemma buildPtiles_length (ps : List ℚ) :
    (buildPtiles ps).length = 2 * ps.length + 1 := by
  simp only [buildPtiles, List.length_map, List.length_append, List.length_reverse,
    List.length_singleton]
  omega

lemma bandCalls_eq_none_iff (pt : List ℚ) (cs : List String) :
    ∀ k, (bandCalls pt cs k = none ↔ cs.length < k) := by
  intro k
  induction k with
  | zero => simp [bandCalls]
  | succ k ih =>
    simp only [bandCalls]
    cases hb : bandCalls pt cs k with
    | none =>
      have hlt := ih.mp hb
      simp only [Option.none_bind]
      constructor
      · intro _; omega
      · intro _; trivial
    | some rest =>
      have hk : ¬ cs.length < k := fun h => by
        rw [ih.mpr h] at hb
        cases hb
      simp only [Option.some_bind]
      cases hg : cs.get? k with
      | none =>
        have hlen : cs.length ≤ k := List.get?_eq_none.mp hg
        simp only [Option.map_none']
        constructor
        · intro _; omega
        · intro _; trivial
      | some c =>
        have hlen : ¬ cs.length ≤ k := fun h => by
          rw [List.get?_eq_none.mpr h] at hg
          cases hg
        simp only [Option.map_some']
        constructor
        · intro h; cases h
        · intro h; omega

lemma bandCalls_some_spec (pt : List ℚ) (cs : List String) :
    ∀ k l, bandCalls pt cs k = some l →
      l.length = k ∧ ∀ i, i < k → l.get? i =
        some (DrawCall.varea (pt.getD i 0) (pt.getD (pt.length - 1 - i) 0)
          (cs.getD i "")) := by
  intro k
  induction k with
  | zero =>
    intro l hl
    simp only [bandCalls, Option.some.injEq] at hl
    refine ⟨by simp [← hl], ?_⟩
    intro i hi
    omega
  | succ k ih =>
    intro l hl
    simp only [bandCalls] at hl
    cases hb : bandCalls pt cs k with
    | none =>
      rw [hb] at hl
      simp at hl
    | some rest =>
      rw [hb] at hl
      simp only [Option.some_bind] at hl
      cases hg : cs.get? k with
      | none =>
        rw [hg] at hl
        simp at hl
      | some c =>
        rw [hg] at hl
        simp only [Option.map_some', Option.some.injEq] at hl
        obtain ⟨hlen, hget⟩ := ih rest hb
        have hcd : cs.getD k "" = c := by
          rw [List.getD_eq_getD_get?, hg]
          rfl
        refine ⟨by simp [← hl, hlen], ?_⟩
        intro i hi
        rcases Nat.lt_or_ge i k with hik | hik
        · rw [← hl, List.get?_append (by omega)]
          exact hget i hik
        · have hieq : i = k := by omega
          subst hieq
          rw [← hl, ← hlen, List.get?_concat_length, hlen, hcd]

lemma effColors_ne_nil (colors : List String) : effColors colors ≠ [] := by
  unfold effColors
  split
  · simp [defaultColors]
  · intro h
    subst h
    simp_all

/-- C5: with n positive percentile widths a successful call draws exactly n
filled bands, the i-th joining the quantile level at position i from the
start of the level list with the level at position i from the end, colored
colors[i], followed by exactly one median line at level 0.5 colored by the
last color; in particular percentiles=[95] gives 2 draw calls. -/
theorem claim_C5 (ps : List ℚ) (colors : List String) (calls : List DrawCall)
    (_hpos : ∀ w ∈ ps, 0 < w)
    (hdraw : predictive_draw ps colors = some calls) :
    calls.length = ps.length + 1 ∧
    (∀ i, i < ps.length → calls.get? i =
      some (DrawCall.varea ((buildPtiles ps).getD i 0)
        ((buildPtiles ps).getD (2 * ps.length - i) 0) ((effColors colors).getD i ""))) ∧
    (∃ c, (effColors colors).getLast? = some c ∧
      calls.get? ps.length = some (DrawCall.line (1/2) c)) := by
  simp only [predictive_draw] at hdraw
  have hone : (buildPtiles ps).length / 2 = ps.length := by
    rw [buildPtiles_length]
    omega
  rw [hone] at hdraw
  cases hb : bandCalls (buildPtiles ps) (effColors colors) ps.length with
  | none =>
    rw [hb] at hdraw
    simp at hdraw
  | some bands =>
    rw [hb] at hdraw
    simp only [Option.some_bind] at hdraw
    cases hgl : (effColors colors).getLast? with
    | none =>
      rw [hgl] at hdraw
      simp at hdraw
    | some c =>
      rw [hgl] at hdraw
      simp only [Option.map_some', Option.some.injEq] at hdraw
      obtain ⟨hlen, hget⟩ := bandCalls_some_spec _ _ _ bands hb
      refine ⟨by simp [← hdraw, hlen], ?_, c, rfl, ?_⟩
      · intro i hi
        rw [← hdraw, List.get?_append (by omega)]
        have hidx : (buildPtiles ps).length - 1 - i = 2 * ps.length - i := by
          rw [buildPtiles_length]
          omega
        rw [← hidx]
        exact hget i hi
      · rw [← hdraw, ← hlen, List.get?_concat_length]

/-- C5 witness: the concrete scenario percentiles=[95] with the default
palette - one band plus the median line, 2 draw calls. -/
theorem claim_C5_witness :
    (∀ w ∈ ([95] : List ℚ), 0 < w) ∧
    predictive_draw [95] [] = some [DrawCall.varea (1/40) (39/40) "#bfd3bf",
      DrawCall.line (1/2) "#004D00"] ∧
    ([DrawCall.varea (1/40) (39/40) "#bfd3bf", DrawCall.line (1/2) "#004D00"] :
      List DrawCall).length = ([95] : List ℚ).length + 1 := by
  have hpos : ∀ w ∈ ([95] : List ℚ), 0 < w := by
    intro w hw
    simp at hw
    rw [hw]
    norm_num
  have hpt : buildPtiles [95] = [1/40, 1/2, 39/40] := by norm_num [buildPtiles]
  have heq : predictive_draw [95] [] = some [DrawCall.varea (1/40) (39/40) "#bfd3bf",
      DrawCall.line (1/2) "#004D00"] := by
    simp [predictive_draw, hpt, bandCalls, effColors, defaultColors]
  exact ⟨hpos, heq, (claim_C5 [95] [] _ hpos heq).1⟩

/-- C7 counterexample: with two percentile widths and two colors the claimed
failure condition len(percentiles) > len(colors) - 1 holds, yet the band
drawing succeeds - the true bound is len(colors), not len(colors) - 1. -/
theorem claim_C7_counterexample :
    (([95, 75] : List ℚ).length > (["#111111", "#222222"] : List String).length - 1) ∧
    (predictive_draw [95, 75] ["#111111", "#222222"]).isSome = true := by
  constructor
  · decide
  · simp [predictive_draw, bandCalls, effColors, buildPtiles]

/-- C7 (amended): the band-drawing step fails with an out-of-range error if
and only if the number of percentile widths exceeds the length of the
effective color list (the supplied list, or the 6-color default palette when
it is empty). -/
theorem claim_C7 (ps : List ℚ) (colors : List String) :
    predictive_draw ps colors = none ↔ (effColors colors).length < ps.length := by
  simp only [predictive_draw]
  have hone : (buildPtiles ps).length / 2 = ps.length := by
    rw [buildPtiles_length]
    omega
  rw [hone]
  cases hb : bandCalls (buildPtiles ps) (effColors colors) ps.length with
  | none =>
    have hlt := (bandCalls_eq_none_iff _ _ _).mp hb
    simp only [Option.none_bind]
    constructor
    · intro _; exact hlt
    · intro _; trivial
  | some bands =>
    have hnlt : ¬ (effColors colors).length < ps.length := fun h => by
      rw [(bandCalls_eq_none_iff _ _ _).mpr h] at hb
      cases hb
    simp only [Option.some_bind]
    cases hgl : (effColors colors).getLast? with
    | none => exact absurd (List.getLast?_eq_none_iff.mp hgl) (effColors_ne_nil colors)
    | some c =>
      simp only [Option.map_some']
      constructor
      · intro h; cases h
      · intro h; exact absurd h hnlt

/-- C2: the quantile-level sequence is (50 - w/2) for each width in order,
then 50, then (50 + w/2) in reverse order, all divided by 100; for widths
[95, 75, 50, 25] it is the 9-level palindromic sequence around 0.5. -/
theorem claim_C2 :
    (∀ ps : List ℚ, buildPtiles ps =
      ps.map (fun w => (50 - w / 2) / 100) ++ [1/2]
        ++ ps.reverse.map (fun w => (50 + w / 2) / 100)) ∧
    buildPtiles [95, 75, 50, 25] =
      [0.025, 0.125, 0.25, 0.375, 0.5, 0.625, 0.75, 0.875, 0.975] ∧
    (buildPtiles [95, 75, 50, 25]).length = 9 ∧
    (buildPtiles [95, 75, 50, 25]).reverse =
      (buildPtiles [95, 75, 50, 25]).map (fun q => 1 - q) := by
  refine ⟨?_, by norm_num [buildPtiles], by norm_num [buildPtiles],
    by norm_num [buildPtiles]⟩
  intro ps
  simp only [buildPtiles, List.map_append, List.map_map, Function.comp_def]
  norm_num

/-- C3: contrary to the claim, the positive-width filter of line 111 is
immediately shadowed: width 0 still contributes the levels [0.5, 0.5, 0.5]
and one degenerate band, even though the filtered list is empty. -/
theorem claim_C3 :
    positiveWidths [0] = [] ∧
    buildPtiles [0] = [1/2, 1/2, 1/2] ∧
    predictive_draw [0] [] =
      some [DrawCall.varea (1/2) (1/2) "#bfd3bf", DrawCall.line (1/2) "#004D00"] := by
  have h2 : buildPtiles [0] = [1/2, 1/2, 1/2] := by norm_num [buildPtiles]
  refine ⟨by norm_num [positiveWidths], h2, ?_⟩
  simp [predictive_draw, h2, bandCalls, effColors, defaultColors]

/-! Concrete evaluations for the summarizer scenario. -/

lemma npQuantile_scenario_med : npQuantile [1, 2, 3, 4, 5] (1/2) = 3 := by
  norm_num [npQuantile, interpAt, List.insertionSort, List.orderedInsert, Int.fract,
    Int.floor_eq_iff, show Int.toNat 2 = 2 from rfl, show Int.toNat 0 = 0 from rfl,
    show Int.toNat 3 = 3 from rfl]

lemma npQuantile_scenario_low : npQuantile [1, 2, 3, 4, 5] (1/40) = 11/10 := by
  norm_num [npQuantile, interpAt, List.insertionSort, List.orderedInsert, Int.fract,
    Int.floor_eq_iff, show Int.toNat 2 = 2 from rfl, show Int.toNat 0 = 0 from rfl,
    show Int.toNat 3 = 3 from rfl]

lemma npQuantile_scenario_up : npQuantile [1, 2, 3, 4, 5] (39/40) = 49/10 := by
  norm_num [npQuantile, interpAt, List.insertionSort, List.orderedInsert, Int.fract,
    Int.floor_eq_iff, show Int.toNat 2 = 2 from rfl, show Int.toNat 0 = 0 from rfl,
    show Int.toNat 3 = 3 from rfl]

lemma round3_scenario_med : round3 3 = 3 := by
  norm_num [round3, roundHalfEven, Int.fract, Int.floor_eq_iff, round_eq]

lemma round3_scenario_low : round3 (11/10) = 11/10 := by
  norm_num [round3, roundHalfEven, Int.fract, Int.floor_eq_iff, round_eq]

lemma round3_scenario_up : round3 (49/10) = 49/10 := by
  norm_num [round3, roundHalfEven, Int.fract, Int.floor_eq_iff, round_eq]

lemma summaryVals_scenario : summaryVals [1, 2, 3, 4, 5] = (3, 11/10, 49/10) := by
  simp only [summaryVals, npQuantile_scenario_med, npQuantile_scenario_low,
    npQuantile_scenario_up, round3_scenario_med, round3_scenario_low, round3_scenario_up]

lemma floatStr_scenario_low : floatStr (11/10) = "1.1" := by
  have h : (⌊(11/10 : ℚ) * 1000⌋ : ℤ) = 1100 := by norm_num [Int.floor_eq_iff]
  simp only [floatStr, h]
  decide

lemma floatStr_scenario_up : floatStr (49/10) = "4.9" := by
  have h : (⌊(49/10 : ℚ) * 1000⌋ : ℤ) = 4900 := by norm_num [Int.floor_eq_iff]
  simp only [floatStr, h]
  decide

/-- C6: summarize([1,2,3,4,5], name="k", units="per sec", plot=False) returns
the single-row record with value "k (per sec)", median 3.0, and 95% CR the
literal string "[1.1, 4.9]" (NumPy default linear-interpolation quantiles). -/
theorem claim_C6 :
    summarize (PyData.ndarray [1, 2, 3, 4, 5]) (some "k") (some "per sec") false =
      Except.ok { value := some "k (per sec)", median := 3, cr := "[1.1, 4.9]" } := by
  simp only [summarize, dataVals, summaryVals_scenario, floatStr_scenario_low,
    floatStr_scenario_up]
  rfl

/-- C8: constructing the plot never mutates the caller's table - every
pandas step reads `df` into fresh frames and the caller's frame after the
call is the frame passed in. -/
theorem claim_C8 (df : DataFrame) (ppc_name : String) (percentiles : List ℚ)
    (x_label y_label : String) (width height : ℕ) (colors : List String) :
    (predictive_regression df ppc_name percentiles x_label y_label width height
      colors).dfAfter = df := rfl

/-- C9: the summarizer is deterministic - two calls with equal data, name,
units and display flag return identical results. -/
theorem claim_C9 (d1 d2 : PyData) (n1 n2 u1 u2 : Option String) (p1 p2 : Bool)
    (hd : d1 = d2) (hn : n1 = n2) (hu : u1 = u2) (hp : p1 = p2) :
    summarize d1 n1 u1 p1 = summarize d2 n2 u2 p2 := by
  rw [hd, hn, hu, hp]

/-- C9 witness: two identical calls on the array [1, 2]. -/
theorem claim_C9_witness :
    (PyData.ndarray [1, 2] = PyData.ndarray [1, 2] ∧
      (some "k" : Option String) = some "k" ∧
      (none : Option String) = (none : Option String) ∧ false = false) ∧
    summarize (PyData.ndarray [1, 2]) (some "k") none false =
      summarize (PyData.ndarray [1, 2]) (some "k") none false :=
  ⟨⟨rfl, rfl, rfl, rfl⟩, claim_C9 _ _ _ _ _ _ _ _ rfl rfl rfl rfl⟩

/-- C10: with plot=True the summarizer reads `data.values`, so a bare numpy
array fails with AttributeError before returning, while the same array with
plot=False returns the summary record normally. -/
theorem claim_C10 (vs : List ℚ) (name units : Option String) :
    summarize (PyData.ndarray vs) name units true = Except.error "AttributeError" ∧
    ∃ s : Summary, summarize (PyData.ndarray vs) name units false = Except.ok s :=
  ⟨rfl, ⟨_, rfl⟩⟩

end StanWorkup
